import Mathlib

/-!
Verification of the `ivar` crate (src/lib.rs): a single-threaded,
reference-counted single-assignment cell.

The cell's packed `meta : u32` word is modelled as a `Nat` kept below
`2 ^ 32`; every arithmetic or bitwise operation mirrors the source
(`+= 1` / `-= 1` become wrapping addition/subtraction modulo `2 ^ 32`,
`&` / `|` become `Nat.land` / `Nat.lor`).  The uninitialized payload of a
fresh cell is modelled by an arbitrary `junk` value, and payload validity
is governed by the `currently_filled` bit exactly as in the source.

On top of the cell we embed the whole-program behaviour as a small-step
system `Sys`: one shared heap cell (shared by all handles, as in the
source where every handle stores the same raw pointer), the number of
live read handles, the write handle's liveness, and bookkeeping for the
claims (how many times the heap storage was released, which payload
values were moved out by `take`, and which were disposed of by the cell
destructor).
-/

namespace Ivar

/-- `2 ^ 32`, the modulus of the `u32` state word. -/
def U32 : Nat := 4294967296

/-- `struct IVarCell<T> { data: T, meta: u32 }`.  `data` models the payload
storage (physically always present, as in Rust where it may hold
uninitialized bits); `meta` is the packed state word. -/
structure IVarCell (α : Type) where
  data : α
  meta : Nat

/-- `IVarCell::new()`: `meta = 1` (one strong ref), payload uninitialized —
the arbitrary contents are passed in as `junk`. -/
def IVarCell.new (junk : α) : IVarCell α :=
  { data := junk, meta := 1 }

/-- `was_ever_filled`: `(self.meta & 0x80000000) != 0`. -/
def IVarCell.was_ever_filled (c : IVarCell α) : Bool :=
  (c.meta &&& 0x80000000) != 0

/-- `is_currently_filled`: `(self.meta & 0x40000000) != 0`. -/
def IVarCell.is_currently_filled (c : IVarCell α) : Bool :=
  (c.meta &&& 0x40000000) != 0

/-- `mark_taken`: `self.meta &= !0x40000000` (the u32 complement of
`0x40000000` is `0xBFFFFFFF`). -/
def IVarCell.mark_taken (c : IVarCell α) : IVarCell α :=
  { c with meta := c.meta &&& 0xBFFFFFFF }

/-- `set_filled`: `self.meta |= 0xC0000000`. -/
def IVarCell.set_filled (c : IVarCell α) : IVarCell α :=
  { c with meta := c.meta ||| 0xC0000000 }

/-- `strong_refs`: `self.meta & !0x30000000` (the u32 complement of
`0x30000000` is `0xCFFFFFFF`, which keeps bits 30 and 31). -/
def IVarCell.strong_refs (c : IVarCell α) : Nat :=
  c.meta &&& 0xCFFFFFFF

/-- `inc_ref`: `self.meta += 1`, wrapping u32 addition. -/
def IVarCell.inc_ref (c : IVarCell α) : IVarCell α :=
  { c with meta := (c.meta + 1) % U32 }

/-- `dec_ref`: `self.meta -= 1; self.strong_refs() == 0` — returns the
updated cell together with the "deallocate now" signal. -/
def IVarCell.dec_ref (c : IVarCell α) : IVarCell α × Bool :=
  let c' : IVarCell α := { c with meta := (c.meta + U32 - 1) % U32 }
  (c', c'.strong_refs == 0)

/-- `take`: if `currently_filled`, clear the bit (`mark_taken`) and move the
payload out (`ptr::read` copies the bits, leaving storage unchanged);
otherwise `None`. -/
def IVarCell.take (c : IVarCell α) : IVarCell α × Option α :=
  if c.is_currently_filled then (c.mark_taken, some c.data) else (c, none)

/-- `peek`: borrow the payload iff `currently_filled`; `&self`, no mutation. -/
def IVarCell.peek (c : IVarCell α) : Option α :=
  if c.is_currently_filled then some c.data else none

/-- `fill`: `unsafe_write(t)` then `set_filled()`. -/
def IVarCell.fill (c : IVarCell α) (t : α) : IVarCell α :=
  IVarCell.set_filled { c with data := t }

/-- `impl Drop for IVarCell`: on destruction the payload is read (and hence
disposed of) iff `currently_filled`; returns the disposed value, if any. -/
def IVarCell.dropPayload (c : IVarCell α) : Option α :=
  if c.is_currently_filled then some c.data else none

/-- The whole-program state: the one shared heap cell (`none` once freed),
the live handle counts, and observation bookkeeping: `frees` counts heap
releases, `takenOut` lists payloads moved out by successful `take`s,
`disposed` lists payloads dropped by the cell destructor. -/
structure Sys (α : Type) where
  cell : Option (IVarCell α)
  rd : Nat
  wr : Bool
  frees : Nat
  takenOut : List α
  disposed : List α

/-- `ivar::new()`: `IVar::new()` allocates the cell with one strong ref
(the write side), then `make_ref()` increments it for the read side. -/
def Sys.new (junk : α) : Sys α :=
  { cell := some (IVarCell.inc_ref (IVarCell.new junk))
    rd := 1
    wr := true
    frees := 0
    takenOut := []
    disposed := [] }

/-- The operations a program can perform on the pair of handles. -/
inductive Op (α : Type) where
  | fill (v : α)
  | take
  | peek
  | clone
  | dropRd
  | dropWr

/-- `impl Drop for IVar`: `dec_ref()`; if it returns true, the box is
reclaimed, running the cell destructor (which disposes of the payload iff
`currently_filled`). -/
def dropHandle (s : Sys α) : Sys α :=
  match s.cell with
  | none => s
  | some c =>
    let r := IVarCell.dec_ref c
    if r.2 then
      { s with
        cell := none
        frees := s.frees + 1
        disposed := s.disposed ++ (IVarCell.dropPayload r.1).toList }
    else
      { s with cell := some r.1 }

/-- One step of the system.  `fill` requires the live write handle and
consumes it (`fill(self, t)` drops the handle, running `dec_ref`);
`take`/`peek`/`clone` require a live read handle; ops whose handle is gone
are no-ops. -/
def step (s : Sys α) (op : Op α) : Sys α :=
  match op with
  | .fill v =>
    if s.wr then
      match s.cell with
      | some c => { (dropHandle { s with cell := some (c.fill v) }) with wr := false }
      | none => s
    else s
  | .take =>
    if 1 ≤ s.rd then
      match s.cell with
      | some c =>
        let r := IVarCell.take c
        { s with cell := some r.1, takenOut := s.takenOut ++ r.2.toList }
      | none => s
    else s
  | .peek => s
  | .clone =>
    if 1 ≤ s.rd then
      match s.cell with
      | some c => { s with cell := some c.inc_ref, rd := s.rd + 1 }
      | none => s
    else s
  | .dropRd =>
    if 1 ≤ s.rd then { (dropHandle s) with rd := s.rd - 1 } else s
  | .dropWr =>
    if s.wr then { (dropHandle s) with wr := false } else s

/-- Run a list of operations from a state. -/
def run (ops : List (Op α)) (s : Sys α) : Sys α :=
  ops.foldl step s

/-- What `read.peek()` returns in a state. -/
def Sys.peekObs (s : Sys α) : Option α :=
  match s.cell with
  | some c => c.peek
  | none => none

/-- What `read.take()` would return in a state. -/
def Sys.takeObs (s : Sys α) : Option α :=
  match s.cell with
  | some c => (IVarCell.take c).2
  | none => none

/-- What `read.is_filled()` returns in a state. -/
def Sys.isFilledObs (s : Sys α) : Bool :=
  match s.cell with
  | some c => c.is_currently_filled
  | none => false

/-- What `read.was_ever_filled()` returns in a state. -/
def Sys.everObs (s : Sys α) : Bool :=
  match s.cell with
  | some c => c.was_ever_filled
  | none => false

/-- Number of live handles (read clones plus the write handle). -/
def Sys.handles (s : Sys α) : Nat :=
  s.rd + (cond s.wr 1 0)

/-- Is an operation a read-handle clone? -/
def isClone : Op α → Bool
  | .clone => true
  | _ => false

/-- Is an operation a fill? -/
def isFill : Op α → Bool
  | .fill _ => true
  | _ => false

/-- Is an operation a write-handle drop? -/
def isDropWr : Op α → Bool
  | .dropWr => true
  | _ => false

/-- Number of clone operations in a trace. -/
def countClone : List (Op α) → Nat
  | [] => 0
  | o :: rest => (cond (isClone o) 1 0) + countClone rest

/-- Does a trace contain a fill operation? -/
def hasFill : List (Op α) → Bool
  | [] => false
  | o :: rest => isFill o || hasFill rest

/-- Does a trace contain a write-handle drop? -/
def hasDropWr : List (Op α) → Bool
  | [] => false
  | o :: rest => isDropWr o || hasDropWr rest

/-- The spec's reading of the packed word: `strong_refs` is the field in
bits 0–29 of the state word (the flag bits are not part of the count). -/
def specRefCount (c : IVarCell α) : Nat :=
  c.meta % 2 ^ 30

/-!
## Canonical states of the packed word

Every state word reachable without refcount overflow has the shape
`mval e c r = 2 ^ 30 * (2 * e + c) + r` with `r < 2 ^ 30`: bit 31 is
`ever_filled` (`e`), bit 30 is `currently_filled` (`c`), and `r` is the
count in bits 0–29.  The lemmas below compute each source operation on
this shape.
-/

/-- The two flag bits as a number in `0..3`. -/
def flagK (e c : Bool) : Nat := 2 * (cond e 1 0) + (cond c 1 0)

/-- Canonical packed word: flags `e` (bit 31) and `c` (bit 30) over a
count `r` in the low 30 bits. -/
def mval (e c : Bool) (r : Nat) : Nat := 2 ^ 30 * flagK e c + r

theorem split_land (K K' b b' : Nat) (hb : b < 2 ^ 30) (hb' : b' < 2 ^ 30) :
    (2 ^ 30 * K + b) &&& (2 ^ 30 * K' + b') = 2 ^ 30 * (K &&& K') + (b &&& b') := by
  apply Nat.eq_of_testBit_eq
  intro j
  rw [Nat.testBit_and, Nat.testBit_mul_pow_two_add _ hb, Nat.testBit_mul_pow_two_add _ hb',
      Nat.testBit_mul_pow_two_add _ (Nat.and_lt_two_pow _ hb')]
  by_cases hj : j < 30 <;> simp [hj, Nat.testBit_and]

theorem split_lor (K K' b b' : Nat) (hb : b < 2 ^ 30) (hb' : b' < 2 ^ 30) :
    (2 ^ 30 * K + b) ||| (2 ^ 30 * K' + b') = 2 ^ 30 * (K ||| K') + (b ||| b') := by
  apply Nat.eq_of_testBit_eq
  intro j
  rw [Nat.testBit_or, Nat.testBit_mul_pow_two_add _ hb, Nat.testBit_mul_pow_two_add _ hb',
      Nat.testBit_mul_pow_two_add _ (Nat.or_lt_two_pow hb hb')]
  by_cases hj : j < 30 <;> simp [hj, Nat.testBit_or]

theorem land_mval_ever {r : Nat} (e c : Bool) (hr : r < 2 ^ 30) :
    mval e c r &&& 0x80000000 = cond e 0x80000000 0 := by
  have h : (0x80000000 : Nat) = 2 ^ 30 * 2 + 0 := by norm_num
  have k3 : (3 : Nat) &&& 2 = 2 := by decide
  have k2 : (2 : Nat) &&& 2 = 2 := by decide
  have k1 : (1 : Nat) &&& 2 = 0 := by decide
  have k0 : (0 : Nat) &&& 2 = 0 := by decide
  rw [mval, h, split_land _ _ _ _ hr (by norm_num)]
  cases e <;> cases c <;> simp [flagK, k3, k2, k1, k0]

theorem land_mval_cur {r : Nat} (e c : Bool) (hr : r < 2 ^ 30) :
    mval e c r &&& 0x40000000 = cond c 0x40000000 0 := by
  have h : (0x40000000 : Nat) = 2 ^ 30 * 1 + 0 := by norm_num
  have k3 : (3 : Nat) &&& 1 = 1 := by decide
  have k2 : (2 : Nat) &&& 1 = 0 := by decide
  have k1 : (1 : Nat) &&& 1 = 1 := by decide
  have k0 : (0 : Nat) &&& 1 = 0 := by decide
  rw [mval, h, split_land _ _ _ _ hr (by norm_num)]
  cases e <;> cases c <;> simp [flagK, k3, k2, k1, k0]

theorem land_mval_taken {r : Nat} (e c : Bool) (hr : r < 2 ^ 30) :
    mval e c r &&& 0xBFFFFFFF = mval e false r := by
  have h : (0xBFFFFFFF : Nat) = 2 ^ 30 * 2 + (2 ^ 30 - 1) := by norm_num
  have k3 : (3 : Nat) &&& 2 = 2 := by decide
  have k2 : (2 : Nat) &&& 2 = 2 := by decide
  have k1 : (1 : Nat) &&& 2 = 0 := by decide
  have k0 : (0 : Nat) &&& 2 = 0 := by decide
  rw [mval, h, split_land _ _ _ _ hr (by norm_num)]
  rw [Nat.and_pow_two_sub_one_eq_mod, Nat.mod_eq_of_lt hr]
  cases e <;> cases c <;> simp [mval, flagK, k3, k2, k1, k0]

theorem lor_mval_fill {r : Nat} (e c : Bool) (hr : r < 2 ^ 30) :
    mval e c r ||| 0xC0000000 = mval true true r := by
  have h : (0xC0000000 : Nat) = 2 ^ 30 * 3 + 0 := by norm_num
  have k3 : (3 : Nat) ||| 3 = 3 := by decide
  have k2 : (2 : Nat) ||| 3 = 3 := by decide
  have k1 : (1 : Nat) ||| 3 = 3 := by decide
  have k0 : (0 : Nat) ||| 3 = 3 := by decide
  rw [mval, h, split_lor _ _ _ _ hr (by norm_num)]
  cases e <;> cases c <;> simp [mval, flagK, k3, k2, k1, k0]

theorem land_mval_refs {r : Nat} (e c : Bool) (hr : r < 2 ^ 30) :
    mval e c r &&& 0xCFFFFFFF = 2 ^ 30 * flagK e c + r % 2 ^ 28 := by
  have h : (0xCFFFFFFF : Nat) = 2 ^ 30 * 3 + (2 ^ 28 - 1) := by norm_num
  have k3 : (3 : Nat) &&& 3 = 3 := by decide
  have k2 : (2 : Nat) &&& 3 = 2 := by decide
  have k1 : (1 : Nat) &&& 3 = 1 := by decide
  have k0 : (0 : Nat) &&& 3 = 0 := by decide
  rw [mval, h, split_land _ _ _ _ hr (by norm_num)]
  rw [Nat.and_pow_two_sub_one_eq_mod]
  cases e <;> cases c <;> simp [flagK, k3, k2, k1, k0]

theorem mval_lt {r : Nat} (e c : Bool) (hr : r < 2 ^ 30) : mval e c r < U32 := by
  cases e <;> cases c <;> simp [mval, flagK, U32] <;> omega

theorem inc_mval {r : Nat} (e c : Bool) (hr : r + 1 < 2 ^ 30) :
    (mval e c r + 1) % U32 = mval e c (r + 1) := by
  have h1 : mval e c (r + 1) < U32 := mval_lt e c hr
  have h2 : mval e c r + 1 = mval e c (r + 1) := by
    cases e <;> cases c <;> simp [mval, flagK] <;> omega
  rw [h2, Nat.mod_eq_of_lt h1]

theorem dec_mval {r : Nat} (e c : Bool) (h1 : 1 ≤ r) (hr : r < 2 ^ 30) :
    (mval e c r + U32 - 1) % U32 = mval e c (r - 1) := by
  have hlt := mval_lt e c hr
  have h2 : 1 ≤ mval e c r := by cases e <;> cases c <;> simp [mval, flagK] <;> omega
  have h3 : mval e c r + U32 - 1 = (mval e c r - 1) + 1 * U32 := by omega
  have h4 : mval e c r - 1 = mval e c (r - 1) := by
    cases e <;> cases c <;> simp [mval, flagK] <;> omega
  rw [h3, Nat.add_mul_mod_self_right, h4, Nat.mod_eq_of_lt (by omega)]

/-!
## The source operations on canonical cells
-/

theorem was_ever_filled_mval {d : α} {r : Nat} (e c : Bool) (hr : r < 2 ^ 30) :
    (IVarCell.mk d (mval e c r)).was_ever_filled = e := by
  rw [IVarCell.was_ever_filled, land_mval_ever e c hr]
  cases e <;> decide

theorem is_currently_filled_mval {d : α} {r : Nat} (e c : Bool) (hr : r < 2 ^ 30) :
    (IVarCell.mk d (mval e c r)).is_currently_filled = c := by
  rw [IVarCell.is_currently_filled, land_mval_cur e c hr]
  cases c <;> decide

theorem mark_taken_mval {d : α} {r : Nat} (e c : Bool) (hr : r < 2 ^ 30) :
    (IVarCell.mk d (mval e c r)).mark_taken = IVarCell.mk d (mval e false r) := by
  rw [IVarCell.mark_taken]
  simp [land_mval_taken e c hr]

theorem fill_mval {d : α} {r : Nat} (v : α) (e c : Bool) (hr : r < 2 ^ 30) :
    (IVarCell.mk d (mval e c r)).fill v = IVarCell.mk v (mval true true r) := by
  rw [IVarCell.fill, IVarCell.set_filled]
  simp [lor_mval_fill e c hr]

theorem inc_ref_mval {d : α} {r : Nat} (e c : Bool) (hr : r + 1 < 2 ^ 30) :
    (IVarCell.mk d (mval e c r)).inc_ref = IVarCell.mk d (mval e c (r + 1)) := by
  rw [IVarCell.inc_ref]
  simp [inc_mval e c hr]

theorem strong_refs_mval {d : α} {r : Nat} (e c : Bool) (hr : r < 2 ^ 30) :
    (IVarCell.mk d (mval e c r)).strong_refs = 2 ^ 30 * flagK e c + r % 2 ^ 28 := by
  rw [IVarCell.strong_refs, land_mval_refs e c hr]

theorem strong_refs_mval_eq_zero_iff {d : α} {r : Nat} (e c : Bool) (hr : r < 2 ^ 30) :
    ((IVarCell.mk d (mval e c r)).strong_refs = 0) ↔
      (e = false ∧ c = false ∧ r % 2 ^ 28 = 0) := by
  rw [strong_refs_mval e c hr]
  cases e <;> cases c <;> simp [flagK] <;> omega

theorem dec_ref_mval {d : α} {r : Nat} (e c : Bool) (h1 : 1 ≤ r) (hr : r < 2 ^ 30) :
    (IVarCell.mk d (mval e c r)).dec_ref =
      (IVarCell.mk d (mval e c (r - 1)),
       decide (e = false ∧ c = false ∧ (r - 1) % 2 ^ 28 = 0)) := by
  rw [IVarCell.dec_ref]
  have hr' : r - 1 < 2 ^ 30 := by omega
  simp only [dec_mval e c h1 hr]
  have hb : ((IVarCell.mk d (mval e c (r - 1))).strong_refs == 0) =
      decide (e = false ∧ c = false ∧ (r - 1) % 2 ^ 28 = 0) := by
    rw [Bool.eq_iff_iff]
    simp only [beq_iff_eq, decide_eq_true_eq]
    exact strong_refs_mval_eq_zero_iff e c hr'
  rw [hb]

theorem take_mval_filled {d : α} {r : Nat} (e : Bool) (hr : r < 2 ^ 30) :
    (IVarCell.mk d (mval e true r)).take = (IVarCell.mk d (mval e false r), some d) := by
  rw [IVarCell.take]
  simp [is_currently_filled_mval e true hr, mark_taken_mval e true hr]

theorem take_mval_empty {d : α} {r : Nat} (e : Bool) (hr : r < 2 ^ 30) :
    (IVarCell.mk d (mval e false r)).take = (IVarCell.mk d (mval e false r), none) := by
  rw [IVarCell.take]
  simp [is_currently_filled_mval e false hr]

theorem peek_mval {d : α} {r : Nat} (e c : Bool) (hr : r < 2 ^ 30) :
    (IVarCell.mk d (mval e c r)).peek = cond c (some d) none := by
  rw [IVarCell.peek]
  cases c <;> simp [is_currently_filled_mval e _ hr]

/-!
## Running traces
-/

theorem run_nil (s : Sys α) : run [] s = s := rfl

theorem run_cons (op : Op α) (ops : List (Op α)) (s : Sys α) :
    run (op :: ops) s = run ops (step s op) := rfl

theorem run_append (l1 l2 : List (Op α)) (s : Sys α) :
    run (l1 ++ l2) s = run l2 (run l1 s) := by
  simp [run]

theorem countClone_cons (op : Op α) (ops : List (Op α)) :
    countClone (op :: ops) = (cond (isClone op) 1 0) + countClone ops := rfl

/-- Running `n` clone operations on a live cell adds `n` to the packed
word (and to the read-handle count), leaving everything else alone —
`inc_ref` is plain wrapping addition with no overflow guard. -/
theorem run_replicate_clone (n : Nat) : ∀ (s : Sys α) (d : α) (m : Nat),
    s.cell = some (IVarCell.mk d m) → 1 ≤ s.rd → m + n < U32 →
    (run (List.replicate n Op.clone) s).cell = some (IVarCell.mk d (m + n)) ∧
    (run (List.replicate n Op.clone) s).rd = s.rd + n ∧
    (run (List.replicate n Op.clone) s).wr = s.wr ∧
    (run (List.replicate n Op.clone) s).frees = s.frees ∧
    (run (List.replicate n Op.clone) s).takenOut = s.takenOut ∧
    (run (List.replicate n Op.clone) s).disposed = s.disposed := by
  induction n with
  | zero =>
    intro s d m hc _ _
    simp [run, hc]
  | succ k ih =>
    intro s d m hc hrd hm
    rw [List.replicate_succ, run_cons]
    have hstep : step s Op.clone =
        { s with cell := some (IVarCell.mk d ((m + 1) % U32)), rd := s.rd + 1 } := by
      simp [step, hrd, hc, IVarCell.inc_ref]
    have hmod : (m + 1) % U32 = m + 1 := Nat.mod_eq_of_lt (by omega)
    rw [hstep, hmod]
    have := ih { s with cell := some (IVarCell.mk d (m + 1)), rd := s.rd + 1 }
      d (m + 1) rfl (by simp) (by omega)
    simpa [Nat.add_assoc, Nat.add_comm, Nat.add_left_comm] using this

/-- Once the cell is filled (bit 31 set) and the write handle is gone,
any trace whose clones keep the count below `2 ^ 30` preserves the shape
of the state: the payload is unchanged, the `currently_filled` bit can
only go from set to clear (by `take`), the count tracks the live read
handles, and the cell is never deallocated (bit 31 makes the buggy
`strong_refs` nonzero forever). -/
theorem run_filled_inv (ops : List (Op α)) : ∀ (s : Sys α) (v : α) (c : Bool),
    s.cell = some (IVarCell.mk v (mval true c s.rd)) → s.wr = false →
    s.rd + countClone ops < 2 ^ 30 →
    ∃ c' : Bool, (c' = true → c = true) ∧
      (run ops s).cell = some (IVarCell.mk v (mval true c' (run ops s).rd)) ∧
      (run ops s).wr = false ∧
      (run ops s).rd < 2 ^ 30 := by
  induction ops with
  | nil =>
    intro s v c hc hw hb
    exact ⟨c, fun h => h, by simpa [run] using hc, by simpa [run] using hw,
      by simpa [run] using Nat.lt_of_le_of_lt (Nat.le_add_right _ _) hb⟩
  | cons op rest ih =>
    intro s v c hc hw hb
    rw [run_cons]
    have hrdlt : s.rd < 2 ^ 30 := Nat.lt_of_le_of_lt (Nat.le_add_right _ _) hb
    have hbrest : s.rd + countClone rest < 2 ^ 30 := by
      rw [countClone_cons] at hb
      exact Nat.lt_of_le_of_lt (Nat.add_le_add_left (Nat.le_add_left _ _) _) hb
    cases op with
    | fill w =>
      have hstep : step s (Op.fill w) = s := by simp [step, hw]
      rw [hstep]
      exact ih s v c hc hw hbrest
    | peek =>
      exact ih s v c hc hw hbrest
    | take =>
      by_cases hrd : 1 ≤ s.rd
      · cases c with
        | true =>
          have hstep : step s Op.take =
              { s with cell := some (IVarCell.mk v (mval true false s.rd)),
                       takenOut := s.takenOut ++ [v] } := by
            simp [step, hrd, hc, take_mval_filled true hrdlt]
          rw [hstep]
          obtain ⟨c', hmono, h1, h2, h3⟩ := ih { s with cell := some (IVarCell.mk v (mval true false s.rd)), takenOut := s.takenOut ++ [v] } v false rfl hw hbrest
          exact ⟨c', fun _ => rfl, h1, h2, h3⟩
        | false =>
          have hstep : step s Op.take =
              { s with cell := some (IVarCell.mk v (mval true false s.rd)),
                       takenOut := s.takenOut ++ [] } := by
            simp [step, hrd, hc, take_mval_empty true hrdlt]
          rw [hstep]
          obtain ⟨c', hmono, h1, h2, h3⟩ := ih { s with cell := some (IVarCell.mk v (mval true false s.rd)), takenOut := s.takenOut ++ [] } v false rfl hw hbrest
          exact ⟨c', hmono, h1, h2, h3⟩
      · have hstep : step s Op.take = s := by
          simp [step, hrd]
        rw [hstep]
        exact ih s v c hc hw hbrest
    | clone =>
      have hb1 : (s.rd + 1) + countClone rest < 2 ^ 30 := by
        rw [countClone_cons] at hb
        simp only [isClone, cond_true] at hb
        omega
      by_cases hrd : 1 ≤ s.rd
      · have hinc := inc_ref_mval (d := v) (r := s.rd) true c (by omega)
        have hstep : step s Op.clone =
            { s with cell := some (IVarCell.mk v (mval true c (s.rd + 1))), rd := s.rd + 1 } := by
          simp [step, hrd, hc, hinc]
        rw [hstep]
        obtain ⟨c', hmono, h1, h2, h3⟩ := ih { s with cell := some (IVarCell.mk v (mval true c (s.rd + 1))), rd := s.rd + 1 } v c rfl hw hb1
        exact ⟨c', hmono, h1, h2, h3⟩
      · have hstep : step s Op.clone = s := by
          simp [step, hrd]
        rw [hstep]
        exact ih s v c hc hw hbrest
    | dropRd =>
      by_cases hrd : 1 ≤ s.rd
      · have hdec := dec_ref_mval (d := v) true c hrd hrdlt
        have hfalse : (decide (true = false ∧ c = false ∧ (s.rd - 1) % 2 ^ 28 = 0)) = false := by
          simp
        have hstep : step s Op.dropRd =
            { s with cell := some (IVarCell.mk v (mval true c (s.rd - 1))), rd := s.rd - 1 } := by
          simp [step, hrd, dropHandle, hc, hdec, hfalse]
        rw [hstep]
        obtain ⟨c', hmono, h1, h2, h3⟩ := ih { s with cell := some (IVarCell.mk v (mval true c (s.rd - 1))), rd := s.rd - 1 } v c rfl hw (by simp only [Sys.rd]; omega)
        exact ⟨c', hmono, h1, h2, h3⟩
      · have hstep : step s Op.dropRd = s := by
          simp [step, hrd]
        rw [hstep]
        exact ih s v c hc hw hbrest
    | dropWr =>
      have hstep : step s Op.dropWr = s := by simp [step, hw]
      rw [hstep]
      exact ih s v c hc hw hbrest

/-!
## Concrete states along the canonical scenarios
-/

theorem new_state (junk : α) :
    Sys.new junk = { cell := some (IVarCell.mk junk (mval false false 2)), rd := 1, wr := true, frees := 0, takenOut := [], disposed := [] } := by
  have h2 : mval false false 2 = 2 := by norm_num [mval, flagK]
  have h1 : ((1 : Nat) + 1) % U32 = 2 := by decide
  simp [Sys.new, IVarCell.new, IVarCell.inc_ref, h1, h2]

theorem postFill_state (junk v : α) :
    run [Op.fill v] (Sys.new junk) = { cell := some (IVarCell.mk v (mval true true 1)), rd := 1, wr := false, frees := 0, takenOut := [], disposed := [] } := by
  rw [new_state]
  have hfill := fill_mval (d := junk) (r := 2) v false false (by norm_num)
  have hdec := dec_ref_mval (d := v) (r := 2) true true (by norm_num) (by norm_num)
  simp [run, step, dropHandle, hfill, hdec]

theorem postTake_state (junk v : α) :
    run [Op.fill v, Op.take] (Sys.new junk) = { cell := some (IVarCell.mk v (mval true false 1)), rd := 1, wr := false, frees := 0, takenOut := [v], disposed := [] } := by
  have hsplit : ([Op.fill v, Op.take] : List (Op α)) = [Op.fill v] ++ [Op.take] := rfl
  rw [hsplit, run_append, postFill_state]
  have htake := take_mval_filled (d := v) (r := 1) true (by norm_num)
  simp [run, step, htake]

theorem obs_mval (s : Sys α) (v : α) (e c : Bool) (r : Nat)
    (hc : s.cell = some (IVarCell.mk v (mval e c r))) (hr : r < 2 ^ 30) :
    Sys.peekObs s = cond c (some v) none ∧
    Sys.takeObs s = cond c (some v) none ∧
    Sys.isFilledObs s = c ∧
    Sys.everObs s = e := by
  refine ⟨?_, ?_, ?_, ?_⟩
  · simp only [Sys.peekObs, hc]
    rw [peek_mval e c hr]
  · simp only [Sys.takeObs, hc]
    cases c with
    | true =>
      rw [take_mval_filled e hr]
      rfl
    | false =>
      rw [take_mval_empty e hr]
      rfl
  · simp only [Sys.isFilledObs, hc]
    rw [is_currently_filled_mval e c hr]
  · simp only [Sys.everObs, hc]
    rw [was_ever_filled_mval e c hr]

theorem run_replicate_peek (n : Nat) (s : Sys α) :
    run (List.replicate n Op.peek) s = s := by
  induction n with
  | zero => rfl
  | succ k ih => rw [List.replicate_succ, run_cons]; exact ih

theorem hasFill_replicate_clone (n : Nat) :
    hasFill (List.replicate n (Op.clone : Op α)) = false := by
  induction n with
  | zero => rfl
  | succ k ih => rw [List.replicate_succ]; simpa [hasFill, isFill] using ih

/-- If `strong_refs` reports zero, bit 30 of the word is clear: the mask
`0xCFFFFFFF` keeps bit 30, so a cell can only be deallocated in a state
where `is_currently_filled` is false. -/
theorem strong_refs_zero_not_filled (c : IVarCell α)
    (h : c.strong_refs = 0) : c.is_currently_filled = false := by
  have hm : (0xCFFFFFFF : Nat) &&& 0x40000000 = 0x40000000 := by decide
  have : c.meta &&& 0x40000000 = 0 := by
    calc c.meta &&& 0x40000000 = c.meta &&& (0xCFFFFFFF &&& 0x40000000) := by rw [hm]
    _ = (c.meta &&& 0xCFFFFFFF) &&& 0x40000000 := by rw [Nat.and_assoc]
    _ = 0 &&& 0x40000000 := by rw [IVarCell.strong_refs] at h; rw [h]
    _ = 0 := by decide
  simp [IVarCell.is_currently_filled, this]

/-- Consequently the cell destructor never actually disposes of a payload:
deallocation only ever happens from a state whose `currently_filled` bit
is clear (in particular, a filled-but-never-taken payload is leaked, not
disposed). -/
theorem step_disposed_eq (op : Op α) (s : Sys α) :
    (step s op).disposed = s.disposed := by
  have hdh : ∀ t : Sys α, (dropHandle t).disposed = t.disposed := by
    intro t
    rw [dropHandle]
    cases hc : t.cell with
    | none => rfl
    | some c =>
      by_cases hz : (IVarCell.dec_ref c).2 = true
      · have hz' : (IVarCell.dec_ref c).1.strong_refs = 0 := by
          rw [IVarCell.dec_ref] at hz ⊢
          simpa using hz
        have hnf := strong_refs_zero_not_filled _ hz'
        simp [hz, IVarCell.dropPayload, hnf]
      · simp [hz]
  cases op with
  | fill v =>
    by_cases hw : s.wr
    · cases hc : s.cell with
      | none => simp [step, hw, hc]
      | some c => simp [step, hw, hc, hdh]
    · simp [step, hw]
  | take =>
    by_cases hr : 1 ≤ s.rd
    · cases hc : s.cell with
      | none => simp [step, hr, hc]
      | some c => simp [step, hr, hc]
    · simp [step, hr]
  | peek => rfl
  | clone =>
    by_cases hr : 1 ≤ s.rd
    · cases hc : s.cell with
      | none => simp [step, hr, hc]
      | some c => simp [step, hr, hc]
    · simp [step, hr]
  | dropRd =>
    by_cases hr : 1 ≤ s.rd
    · simp [step, hr, hdh]
    · simp [step, hr]
  | dropWr =>
    by_cases hw : s.wr
    · simp [step, hw, hdh]
    · simp [step, hw]

theorem run_disposed_eq (ops : List (Op α)) : ∀ s : Sys α,
    (run ops s).disposed = s.disposed := by
  induction ops with
  | nil => intro s; rfl
  | cons op rest ih =>
    intro s
    rw [run_cons, ih, step_disposed_eq]

/-- Before any fill (and with the write handle still live), the cell stays
in the unfilled shape: the word is exactly the live-handle count, which
never reaches zero because the write handle's reference persists. -/
theorem run_prefill_inv (ops : List (Op α)) : ∀ (s : Sys α) (d : α),
    hasFill ops = false → hasDropWr ops = false →
    s.cell = some (IVarCell.mk d (mval false false (s.rd + 1))) → s.wr = true →
    (s.rd + 1) + countClone ops < 2 ^ 28 →
    (run ops s).cell = some (IVarCell.mk d (mval false false ((run ops s).rd + 1))) ∧
    (run ops s).wr = true ∧
    ((run ops s).rd + 1) + 0 < 2 ^ 28 := by
  induction ops with
  | nil =>
    intro s d _ _ hc hw hb
    exact ⟨hc, hw, by simpa [run] using Nat.lt_of_le_of_lt (Nat.le_add_right _ _) hb⟩
  | cons op rest ih =>
    intro s d hnf hnd hc hw hb
    rw [run_cons]
    have hnf' : isFill op = false ∧ hasFill rest = false := by
      rw [hasFill] at hnf
      exact ⟨by cases hef : isFill op <;> simp [hef] at hnf ⊢, by cases heg : hasFill rest <;> simp [heg] at hnf ⊢⟩
    have hnd' : isDropWr op = false ∧ hasDropWr rest = false := by
      rw [hasDropWr] at hnd
      exact ⟨by cases hef : isDropWr op <;> simp [hef] at hnd ⊢, by cases heg : hasDropWr rest <;> simp [heg] at hnd ⊢⟩
    have hrdlt : s.rd + 1 < 2 ^ 28 := Nat.lt_of_le_of_lt (Nat.le_add_right _ _) hb
    have hbrest : (s.rd + 1) + countClone rest < 2 ^ 28 := by
      rw [countClone_cons] at hb
      exact Nat.lt_of_le_of_lt (Nat.add_le_add_left (Nat.le_add_left _ _) _) hb
    cases op with
    | fill w => exact absurd hnf'.1 (by simp [isFill])
    | dropWr => exact absurd hnd'.1 (by simp [isDropWr])
    | peek => exact ih s d hnf'.2 hnd'.2 hc hw hbrest
    | take =>
      by_cases hrd : 1 ≤ s.rd
      · have htk := take_mval_empty (d := d) (r := s.rd + 1) false (by omega)
        have hstep : step s Op.take = { s with cell := some (IVarCell.mk d (mval false false (s.rd + 1))), takenOut := s.takenOut ++ [] } := by
          simp [step, hrd, hc, htk]
        rw [hstep]
        exact ih { s with cell := some (IVarCell.mk d (mval false false (s.rd + 1))), takenOut := s.takenOut ++ [] } d hnf'.2 hnd'.2 rfl hw hbrest
      · have hstep : step s Op.take = s := by simp [step, hrd]
        rw [hstep]
        exact ih s d hnf'.2 hnd'.2 hc hw hbrest
    | clone =>
      have hb1 : ((s.rd + 1) + 1) + countClone rest < 2 ^ 28 := by
        rw [countClone_cons] at hb
        simp only [isClone, cond_true] at hb
        omega
      by_cases hrd : 1 ≤ s.rd
      · have hinc := inc_ref_mval (d := d) (r := s.rd + 1) false false (by omega)
        have hstep : step s Op.clone = { s with cell := some (IVarCell.mk d (mval false false (s.rd + 1 + 1))), rd := s.rd + 1 } := by
          simp [step, hrd, hc, hinc]
        rw [hstep]
        exact ih { s with cell := some (IVarCell.mk d (mval false false (s.rd + 1 + 1))), rd := s.rd + 1 } d hnf'.2 hnd'.2 rfl hw hb1
      · have hstep : step s Op.clone = s := by simp [step, hrd]
        rw [hstep]
        exact ih s d hnf'.2 hnd'.2 hc hw hbrest
    | dropRd =>
      by_cases hrd : 1 ≤ s.rd
      · have hdec := dec_ref_mval (d := d) (r := s.rd + 1) false false (by omega) (by omega)
        have hz : ((s.rd + 1) - 1) % 2 ^ 28 = s.rd := by
          have : (s.rd + 1) - 1 = s.rd := by omega
          rw [this, Nat.mod_eq_of_lt (by omega)]
        have hzz : s.rd % 268435456 = s.rd := Nat.mod_eq_of_lt (by omega)
        have hnz : ¬ (s.rd = 0) := by omega
        have hstep : step s Op.dropRd = { s with cell := some (IVarCell.mk d (mval false false ((s.rd + 1) - 1))), rd := s.rd - 1 } := by
          simp [step, hrd, dropHandle, hc, hdec, hz, hzz, hnz]
        have heq : (s.rd + 1) - 1 = (s.rd - 1) + 1 := by omega
        rw [hstep, heq]
        exact ih { s with cell := some (IVarCell.mk d (mval false false ((s.rd - 1) + 1))), rd := s.rd - 1 } d hnf'.2 hnd'.2 rfl hw (by simp only [Sys.rd]; omega)
      · have hstep : step s Op.dropRd = s := by simp [step, hrd]
        rw [hstep]
        exact ih s d hnf'.2 hnd'.2 hc hw hbrest

/-!
## The global shape invariant

Every state reachable from a fresh pair while the live-handle count stays
below `2 ^ 28` is of one of four shapes: freed before any fill; live and
never filled; live, filled and untaken; or live, filled and taken exactly
once.  In particular at most one payload is ever moved out by `take`.
-/

/-- Shape of reachable states (see section header). -/
def InvShape (s : Sys α) : Prop :=
  (s.cell = none ∧ s.takenOut = []) ∨
  (∃ v : α, ∃ e c : Bool, s.cell = some (IVarCell.mk v (mval e c s.handles)) ∧
    ((e = false ∧ c = false ∧ s.takenOut = []) ∨
     (e = true ∧ c = true ∧ s.wr = false ∧ s.takenOut = []) ∨
     (e = true ∧ c = false ∧ s.wr = false ∧ ∃ w : α, s.takenOut = [w])))

theorem step_none (op : Op α) (s : Sys α) (h : s.cell = none) :
    (step s op).cell = none ∧ (step s op).takenOut = s.takenOut ∧
    (step s op).handles ≤ s.handles := by
  cases op with
  | fill w =>
    by_cases hw : s.wr <;> simp [step, hw, h, Sys.handles] <;> try exact h
  | take =>
    by_cases hr : 1 ≤ s.rd <;> simp [step, hr, h, Sys.handles] <;> try exact h
  | peek => exact ⟨h, rfl, Nat.le.refl⟩
  | clone =>
    by_cases hr : 1 ≤ s.rd <;> simp [step, hr, h, Sys.handles] <;> try exact h
  | dropRd =>
    by_cases hr : 1 ≤ s.rd
    · refine ⟨?_, ?_, ?_⟩ <;> simp [step, hr, dropHandle, h, Sys.handles] <;> omega
    · simp [step, hr, h]
  | dropWr =>
    by_cases hw : s.wr
    · refine ⟨?_, ?_, ?_⟩ <;> simp [step, hw, dropHandle, h, Sys.handles]
    · simp [step, hw, h]

theorem step_shape (op : Op α) (s : Sys α) (h : InvShape s)
    (hb : s.handles + (cond (isClone op) 1 0) < 2 ^ 28) :
    InvShape (step s op) ∧ (step s op).handles ≤ s.handles + (cond (isClone op) 1 0) := by
  rcases h with ⟨hcell, htk⟩ | ⟨v, e, c, hcell, hbr⟩
  · obtain ⟨h1, h2, h3⟩ := step_none op s hcell
    exact ⟨Or.inl ⟨h1, by rw [h2]; exact htk⟩, Nat.le_trans h3 (Nat.le_add_right _ _)⟩
  · have hH28 : s.handles < 2 ^ 28 := Nat.lt_of_le_of_lt (Nat.le_add_right _ _) hb
    have hH30 : s.handles < 2 ^ 30 := by omega
    cases op with
    | peek => exact ⟨Or.inr ⟨v, e, c, hcell, hbr⟩, Nat.le_add_right _ _⟩
    | fill w =>
      by_cases hw : s.wr
      · rcases hbr with ⟨he, hc2, htk⟩ | ⟨he, hc2, hw2, htk⟩ | ⟨he, hc2, hw2, w2, htk⟩
        · subst he; subst hc2
          have h1 : 1 ≤ s.handles := by
            rw [Sys.handles, hw]
            simp only [Bool.cond_true]
            omega
          have hfill := fill_mval (d := v) (r := s.handles) w false false hH30
          have hdec := dec_ref_mval (d := w) (r := s.handles) true true h1 hH30
          have hstep : step s (Op.fill w) = { s with cell := some (IVarCell.mk w (mval true true (s.handles - 1))), wr := false } := by
            simp [step, hw, hcell, dropHandle, hfill, hdec]
          have hh : ({ s with cell := some (IVarCell.mk w (mval true true (s.handles - 1))), wr := false } : Sys α).handles = s.handles - 1 := by
            simp only [Sys.handles, Sys.handles, hw]
            simp only [Bool.cond_true, Bool.cond_false]
            omega
          rw [hstep]
          refine ⟨Or.inr ⟨w, true, true, ?_, Or.inr (Or.inl ⟨rfl, rfl, rfl, htk⟩)⟩, ?_⟩
          · rw [hh]
          · rw [hh]
            omega
        · rw [hw2] at hw
          exact absurd hw (by simp)
        · rw [hw2] at hw
          exact absurd hw (by simp)
      · have hstep : step s (Op.fill w) = s := by simp [step, hw]
        rw [hstep]
        exact ⟨Or.inr ⟨v, e, c, hcell, hbr⟩, Nat.le_add_right _ _⟩
    | take =>
      by_cases hr : 1 ≤ s.rd
      · rcases hbr with ⟨he, hc2, htk⟩ | ⟨he, hc2, hw2, htk⟩ | ⟨he, hc2, hw2, w2, htk⟩
        · subst he; subst hc2
          have htke := take_mval_empty (d := v) (r := s.handles) false hH30
          have hstep : step s Op.take = { s with cell := some (IVarCell.mk v (mval false false s.handles)), takenOut := s.takenOut ++ [] } := by
            simp [step, hr, hcell, htke]
          rw [hstep]
          refine ⟨Or.inr ⟨v, false, false, rfl, Or.inl ⟨rfl, rfl, ?_⟩⟩, Nat.le_add_right _ _⟩
          simpa using htk
        · subst he; subst hc2
          have htkf := take_mval_filled (d := v) (r := s.handles) true hH30
          have hstep : step s Op.take = { s with cell := some (IVarCell.mk v (mval true false s.handles)), takenOut := s.takenOut ++ [v] } := by
            simp [step, hr, hcell, htkf]
          rw [hstep]
          refine ⟨Or.inr ⟨v, true, false, rfl, Or.inr (Or.inr ⟨rfl, rfl, hw2, v, ?_⟩)⟩, Nat.le_add_right _ _⟩
          rw [htk]
          rfl
        · subst he; subst hc2
          have htke := take_mval_empty (d := v) (r := s.handles) true hH30
          have hstep : step s Op.take = { s with cell := some (IVarCell.mk v (mval true false s.handles)), takenOut := s.takenOut ++ [] } := by
            simp [step, hr, hcell, htke]
          rw [hstep]
          refine ⟨Or.inr ⟨v, true, false, rfl, Or.inr (Or.inr ⟨rfl, rfl, hw2, w2, ?_⟩)⟩, Nat.le_add_right _ _⟩
          simpa using htk
      · have hstep : step s Op.take = s := by simp [step, hr]
        rw [hstep]
        exact ⟨Or.inr ⟨v, e, c, hcell, hbr⟩, Nat.le_add_right _ _⟩
    | clone =>
      by_cases hr : 1 ≤ s.rd
      · have hinc := inc_ref_mval (d := v) (r := s.handles) e c (by omega)
        have hstep : step s Op.clone = { s with cell := some (IVarCell.mk v (mval e c (s.handles + 1))), rd := s.rd + 1 } := by
          simp [step, hr, hcell, hinc]
        have hh : ({ s with cell := some (IVarCell.mk v (mval e c (s.handles + 1))), rd := s.rd + 1 } : Sys α).handles = s.handles + 1 := by
          simp only [Sys.handles]
          cases hwv : s.wr <;> simp only [Bool.cond_true, Bool.cond_false] <;> omega
        rw [hstep]
        refine ⟨Or.inr ⟨v, e, c, ?_, ?_⟩, ?_⟩
        · rw [hh]
        · rcases hbr with ⟨he, hc2, htk⟩ | ⟨he, hc2, hw2, htk⟩ | ⟨he, hc2, hw2, w2, htk⟩
          · exact Or.inl ⟨he, hc2, htk⟩
          · exact Or.inr (Or.inl ⟨he, hc2, hw2, htk⟩)
          · exact Or.inr (Or.inr ⟨he, hc2, hw2, w2, htk⟩)
        · rw [hh]
          simp [isClone]
      · have hstep : step s Op.clone = s := by simp [step, hr]
        rw [hstep]
        exact ⟨Or.inr ⟨v, e, c, hcell, hbr⟩, Nat.le_add_right _ _⟩
    | dropRd =>
      by_cases hr : 1 ≤ s.rd
      · have h1 : 1 ≤ s.handles := by
          rw [Sys.handles]
          omega
        have hdec := dec_ref_mval (d := v) (r := s.handles) e c h1 hH30
        have hmod : (s.handles - 1) % 268435456 = s.handles - 1 := Nat.mod_eq_of_lt (by omega)
        have hh : ∀ (t : Option (IVarCell α)) (u : Nat), (Sys.mk t (s.rd - 1) s.wr u s.takenOut s.disposed).handles = s.handles - 1 := by
          intro t u
          simp only [Sys.handles]
          cases hwv : s.wr <;> simp only [Bool.cond_true, Bool.cond_false] <;> omega
        rcases hbr with ⟨he, hc2, htk⟩ | ⟨he, hc2, hw2, htk⟩ | ⟨he, hc2, hw2, w2, htk⟩
        · subst he; subst hc2
          by_cases hz : s.handles - 1 = 0
          · have hnotf : (IVarCell.mk v (mval false false 0)).is_currently_filled = false :=
              is_currently_filled_mval false false (by omega)
            have hstep : step s Op.dropRd = { s with cell := none, frees := s.frees + 1, rd := s.rd - 1 } := by
              simp [step, hr, dropHandle, hcell, hdec, hmod, hz, IVarCell.dropPayload, hnotf]
            rw [hstep]
            exact ⟨Or.inl ⟨rfl, htk⟩, by rw [hh]; omega⟩
          · have hstep : step s Op.dropRd = { s with cell := some (IVarCell.mk v (mval false false (s.handles - 1))), rd := s.rd - 1 } := by
              simp [step, hr, dropHandle, hcell, hdec, hmod, hz]
            rw [hstep]
            exact ⟨Or.inr ⟨v, false, false, by rw [hh], Or.inl ⟨rfl, rfl, htk⟩⟩, by rw [hh]; omega⟩
        · subst he; subst hc2
          have hstep : step s Op.dropRd = { s with cell := some (IVarCell.mk v (mval true true (s.handles - 1))), rd := s.rd - 1 } := by
            simp [step, hr, dropHandle, hcell, hdec]
          rw [hstep]
          exact ⟨Or.inr ⟨v, true, true, by rw [hh], Or.inr (Or.inl ⟨rfl, rfl, hw2, htk⟩)⟩, by rw [hh]; omega⟩
        · subst he; subst hc2
          have hstep : step s Op.dropRd = { s with cell := some (IVarCell.mk v (mval true false (s.handles - 1))), rd := s.rd - 1 } := by
            simp [step, hr, dropHandle, hcell, hdec]
          rw [hstep]
          exact ⟨Or.inr ⟨v, true, false, by rw [hh], Or.inr (Or.inr ⟨rfl, rfl, hw2, w2, htk⟩)⟩, by rw [hh]; omega⟩
      · have hstep : step s Op.dropRd = s := by simp [step, hr]
        rw [hstep]
        exact ⟨Or.inr ⟨v, e, c, hcell, hbr⟩, Nat.le_add_right _ _⟩
    | dropWr =>
      by_cases hw : s.wr
      · rcases hbr with ⟨he, hc2, htk⟩ | ⟨he, hc2, hw2, htk⟩ | ⟨he, hc2, hw2, w2, htk⟩
        · subst he; subst hc2
          have h1 : 1 ≤ s.handles := by
            rw [Sys.handles, hw]
            simp only [Bool.cond_true]
            omega
          have hdec := dec_ref_mval (d := v) (r := s.handles) false false h1 hH30
          have hmod : (s.handles - 1) % 268435456 = s.handles - 1 := Nat.mod_eq_of_lt (by omega)
          have hh : ∀ (t : Option (IVarCell α)) (u : Nat), (Sys.mk t s.rd false u s.takenOut s.disposed).handles = s.handles - 1 := by
            intro t u
            simp only [Sys.handles, hw]
            simp only [Bool.cond_true, Bool.cond_false]
            omega
          by_cases hz : s.handles - 1 = 0
          · have hnotf : (IVarCell.mk v (mval false false 0)).is_currently_filled = false :=
              is_currently_filled_mval false false (by omega)
            have hstep : step s Op.dropWr = { s with cell := none, frees := s.frees + 1, wr := false } := by
              simp [step, hw, dropHandle, hcell, hdec, hmod, hz, IVarCell.dropPayload, hnotf]
            rw [hstep]
            exact ⟨Or.inl ⟨rfl, htk⟩, by rw [hh]; omega⟩
          · have hstep : step s Op.dropWr = { s with cell := some (IVarCell.mk v (mval false false (s.handles - 1))), wr := false } := by
              simp [step, hw, dropHandle, hcell, hdec, hmod, hz]
            rw [hstep]
            exact ⟨Or.inr ⟨v, false, false, by rw [hh], Or.inl ⟨rfl, rfl, htk⟩⟩, by rw [hh]; omega⟩
        · rw [hw2] at hw
          exact absurd hw (by simp)
        · rw [hw2] at hw
          exact absurd hw (by simp)
      · have hstep : step s Op.dropWr = s := by simp [step, hw]
        rw [hstep]
        exact ⟨Or.inr ⟨v, e, c, hcell, hbr⟩, Nat.le_add_right _ _⟩

theorem run_shape (ops : List (Op α)) : ∀ s : Sys α,
    InvShape s → s.handles + countClone ops < 2 ^ 28 →
    InvShape (run ops s) ∧ (run ops s).handles ≤ s.handles + countClone ops := by
  induction ops with
  | nil =>
    intro s h hb
    exact ⟨h, by simp [run, countClone]⟩
  | cons op rest ih =>
    intro s h hb
    rw [run_cons]
    have hb1 : s.handles + (cond (isClone op) 1 0) < 2 ^ 28 := by
      rw [countClone_cons] at hb
      cases hco : isClone op <;> simp [hco] at hb ⊢ <;> omega
    obtain ⟨h1, h2⟩ := step_shape op s h hb1
    have hb' : (step s op).handles + countClone rest < 2 ^ 28 := by
      rw [countClone_cons] at hb
      cases hco : isClone op <;> simp [hco] at hb h2 <;> omega
    obtain ⟨h3, h4⟩ := ih (step s op) h1 hb'
    refine ⟨h3, ?_⟩
    rw [countClone_cons]
    cases hco : isClone op <;> simp [hco] at h2 h4 ⊢ <;> omega

/-- `mark_taken` clears bit 30 whatever the rest of the word holds, so a
cell that has just been taken reports `is_currently_filled = false`. -/
theorem mark_taken_not_filled (c : IVarCell α) :
    c.mark_taken.is_currently_filled = false := by
  rw [IVarCell.mark_taken, IVarCell.is_currently_filled]
  have h0 : (0xBFFFFFFF : Nat) &&& 0x40000000 = 0 := by decide
  simp only [Nat.and_assoc, h0, Nat.and_zero]
  rfl

/-!
## The claims
-/

/-- C6: for a freshly constructed pair (before any fill), `peek` returns
`None`, `take` returns `None`, `is_filled` is false and `was_ever_filled`
is false. -/
theorem fresh_pair_empty (junk : α) :
    Sys.peekObs (Sys.new junk) = none ∧ Sys.takeObs (Sys.new junk) = none ∧
    Sys.isFilledObs (Sys.new junk) = false ∧ Sys.everObs (Sys.new junk) = false := by
  have hc : (Sys.new junk).cell = some (IVarCell.mk junk (mval false false 2)) := by
    rw [new_state]
  obtain ⟨h1, h2, h3, h4⟩ := obs_mval (Sys.new junk) junk false false 2 hc (by norm_num)
  exact ⟨h1, h2, h3, h4⟩

/-- C4: right after `write.fill(v)` and before any take, `peek` returns the
value `v`, `is_filled` is true and `was_ever_filled` is true. -/
theorem fill_visible (junk v : α) :
    Sys.peekObs (run [Op.fill v] (Sys.new junk)) = some v ∧
    Sys.isFilledObs (run [Op.fill v] (Sys.new junk)) = true ∧
    Sys.everObs (run [Op.fill v] (Sys.new junk)) = true := by
  have hc : (run [Op.fill v] (Sys.new junk)).cell = some (IVarCell.mk v (mval true true 1)) := by
    rw [postFill_state]
  obtain ⟨h1, _, h3, h4⟩ := obs_mval _ v true true 1 hc (by norm_num)
  exact ⟨h1, h3, h4⟩

/-- C5: a read-handle clone aliases the same underlying cell: filling,
cloning, then taking through the clone makes every handle's subsequent
`take` and `peek` observe the empty post-take state (the model has a
single shared cell, exactly as in the source where `clone` copies the raw
cell pointer and only bumps the refcount). -/
theorem clone_shares_cell (junk v : α) :
    (run [Op.fill v, Op.clone, Op.take] (Sys.new junk)).takenOut = [v] ∧
    Sys.takeObs (run [Op.fill v, Op.clone, Op.take] (Sys.new junk)) = none ∧
    Sys.peekObs (run [Op.fill v, Op.clone, Op.take] (Sys.new junk)) = none ∧
    Sys.isFilledObs (run [Op.fill v, Op.clone, Op.take] (Sys.new junk)) = false := by
  have hsplit : ([Op.fill v, Op.clone, Op.take] : List (Op α)) = [Op.fill v] ++ [Op.clone, Op.take] := rfl
  have hinc := inc_ref_mval (d := v) (r := 1) true true (by norm_num)
  have htk := take_mval_filled (d := v) (r := 2) true (by norm_num)
  have hstate : run [Op.fill v, Op.clone, Op.take] (Sys.new junk) = { cell := some (IVarCell.mk v (mval true false 2)), rd := 2, wr := false, frees := 0, takenOut := [] ++ [v], disposed := [] } := by
    rw [hsplit, run_append, postFill_state]
    simp [run, step, hinc, htk]
  obtain ⟨hp, ht, hf, _⟩ := obs_mval (run [Op.fill v, Op.clone, Op.take] (Sys.new junk)) v true false 2 (by rw [hstate]) (by norm_num)
  exact ⟨by rw [hstate]; rfl, ht, hp, hf⟩

/-- C1 (code bug): on the cell with state word `0xC0000001` (both flag
bits set, strong count 1), `dec_ref` decrements the count from 1 to 0 but
returns `false`, because `strong_refs` masks with `!0x30000000` (clearing
bits 28–29) instead of `!0xC0000000`, so the flag bits are counted as
references.  This contradicts the claim (and `dec_ref`'s own doc comment)
that it returns true iff the count reached 0, regardless of the flag
bits.  `specRefCount` is the spec's bits-0–29 field. -/
theorem dec_ref_flag_bits_bug :
    specRefCount (IVarCell.mk (0 : Nat) 0xC0000001) = 1 ∧
    (IVarCell.dec_ref (IVarCell.mk (0 : Nat) 0xC0000001)).1.meta = 0xC0000000 ∧
    specRefCount (IVarCell.dec_ref (IVarCell.mk (0 : Nat) 0xC0000001)).1 = 0 ∧
    (IVarCell.dec_ref (IVarCell.mk (0 : Nat) 0xC0000001)).2 = false ∧
    IVarCell.strong_refs (IVarCell.dec_ref (IVarCell.mk (0 : Nat) 0xC0000001)).1 = 0xC0000000 := by
  refine ⟨by decide, by decide, by decide, by decide, by decide⟩

/-- C2 (code bug): filling the ivar and then dropping both handles leaves
the heap cell allocated forever: both drops run `dec_ref`, but with the
flag bits set `strong_refs()` never returns 0 (same mask bug as C1), so
the storage of a filled ivar is never released — the claim that it is
released exactly once when the last handle is dropped fails. -/
theorem filled_cell_leak_bug (junk v : α) :
    (run [Op.fill v, Op.dropRd] (Sys.new junk)).frees = 0 ∧
    Sys.handles (run [Op.fill v, Op.dropRd] (Sys.new junk)) = 0 ∧
    (run [Op.fill v, Op.dropRd] (Sys.new junk)).cell = some (IVarCell.mk v (mval true true 0)) := by
  have hsplit : ([Op.fill v, Op.dropRd] : List (Op α)) = [Op.fill v] ++ [Op.dropRd] := rfl
  have hdec := dec_ref_mval (d := v) (r := 1) true true (by norm_num) (by norm_num)
  have hstate : run [Op.fill v, Op.dropRd] (Sys.new junk) = { cell := some (IVarCell.mk v (mval true true 0)), rd := 0, wr := false, frees := 0, takenOut := [], disposed := [] } := by
    rw [hsplit, run_append, postFill_state]
    simp [run, step, dropHandle, hdec]
  rw [hstate]
  refine ⟨rfl, rfl, rfl⟩

/-- C8: `peek` is non-destructive — running any number of `peek`
operations leaves the whole state (packed word and payload included)
unchanged, and it returns the payload exactly when `currently_filled` is
set. -/
theorem peek_nondestructive (c : IVarCell α) (s : Sys α) (n : Nat) :
    run (List.replicate n Op.peek) s = s ∧
    step s Op.peek = s ∧
    IVarCell.peek c = (if c.is_currently_filled then some c.data else none) :=
  ⟨run_replicate_peek n s, rfl, rfl⟩

/-- C9: `inc_ref` adds 1 to the whole packed word with no overflow guard
(`(meta + 1) % 2^32`), so the count carries into the flag bits: from a
fresh pair, `2^30 - 2` read-handle clones bring the live-handle count to
`2^30` and set bit 30, after which `is_filled` reports true on this
never-filled ivar (`was_ever_filled` is still false and the trace
contains no fill). -/
theorem inc_ref_overflow_sets_filled :
    (∀ c : IVarCell Nat, (IVarCell.inc_ref c).meta = (c.meta + 1) % 4294967296) ∧
    hasFill (List.replicate 1073741822 (Op.clone : Op Nat)) = false ∧
    Sys.handles (run (List.replicate 1073741822 Op.clone) (Sys.new 0)) = 1073741824 ∧
    Sys.isFilledObs (run (List.replicate 1073741822 Op.clone) (Sys.new 0)) = true ∧
    Sys.everObs (run (List.replicate 1073741822 Op.clone) (Sys.new 0)) = false := by
  have hc : (Sys.new (0 : Nat)).cell = some (IVarCell.mk 0 2) := rfl
  obtain ⟨h1, h2, h3, _, _, _⟩ := run_replicate_clone 1073741822 (Sys.new (0 : Nat)) 0 2 hc
    (by rfl) (by norm_num [U32])
  refine ⟨fun c => rfl, hasFill_replicate_clone _, ?_, ?_, ?_⟩
  · rw [Sys.handles, h2, h3]
    rfl
  · rw [Sys.isFilledObs, h1]
    decide
  · rw [Sys.everObs, h1]
    decide

/-- C3 (amended): after `fill(v)` the first `take` returns `Some v`;
`is_filled` becomes false while `was_ever_filled` stays true; and —
provided the clone operations keep the strong count below `2 ^ 30`, so
that no carry reaches the flag bits — every subsequent `take` or `peek`
through any handle or clone returns `None`. -/
theorem take_once_bounded (junk v : α) (ops : List (Op α))
    (hb : countClone ops + 1 < 2 ^ 30) :
    Sys.takeObs (run [Op.fill v] (Sys.new junk)) = some v ∧
    (run [Op.fill v, Op.take] (Sys.new junk)).takenOut = [v] ∧
    Sys.isFilledObs (run [Op.fill v, Op.take] (Sys.new junk)) = false ∧
    Sys.everObs (run [Op.fill v, Op.take] (Sys.new junk)) = true ∧
    Sys.takeObs (run ops (run [Op.fill v, Op.take] (Sys.new junk))) = none ∧
    Sys.peekObs (run ops (run [Op.fill v, Op.take] (Sys.new junk))) = none ∧
    Sys.isFilledObs (run ops (run [Op.fill v, Op.take] (Sys.new junk))) = false ∧
    Sys.everObs (run ops (run [Op.fill v, Op.take] (Sys.new junk))) = true := by
  have hpf : (run [Op.fill v] (Sys.new junk)).cell = some (IVarCell.mk v (mval true true 1)) := by
    rw [postFill_state]
  have hobs1 := obs_mval _ v true true 1 hpf (by norm_num)
  rw [postTake_state junk v]
  obtain ⟨c', hmono, hcell', hwr', hrd'⟩ := run_filled_inv ops { cell := some (IVarCell.mk v (mval true false 1)), rd := 1, wr := false, frees := 0, takenOut := [v], disposed := [] } v false rfl rfl (by show 1 + countClone ops < 2 ^ 30; omega)
  have hc'f : c' = false := by
    cases c' with
    | false => rfl
    | true => exact absurd (hmono rfl) (by simp)
  rw [hc'f] at hcell'
  obtain ⟨hp3, ht3, hf3, he3⟩ := obs_mval _ v true false _ hcell' hrd'
  obtain ⟨_, _, hf2, he2⟩ := obs_mval { cell := some (IVarCell.mk v (mval true false 1)), rd := 1, wr := false, frees := 0, takenOut := [v], disposed := [] } v true false 1 rfl (by norm_num)
  exact ⟨hobs1.2.1, rfl, hf2, he2, ht3, hp3, hf3, he3⟩

/-- Witness for `take_once_bounded` at `junk = 0`, `v = 5`,
`ops = [Op.clone]`. -/
theorem take_once_bounded_witness :
    (countClone [(Op.clone : Op Nat)] + 1 < 2 ^ 30) ∧
    (Sys.takeObs (run [Op.fill 5] (Sys.new (0 : Nat))) = some 5 ∧
     (run [Op.fill 5, Op.take] (Sys.new (0 : Nat))).takenOut = [5] ∧
     Sys.isFilledObs (run [Op.fill 5, Op.take] (Sys.new (0 : Nat))) = false ∧
     Sys.everObs (run [Op.fill 5, Op.take] (Sys.new (0 : Nat))) = true ∧
     Sys.takeObs (run [Op.clone] (run [Op.fill 5, Op.take] (Sys.new (0 : Nat)))) = none ∧
     Sys.peekObs (run [Op.clone] (run [Op.fill 5, Op.take] (Sys.new (0 : Nat)))) = none ∧
     Sys.isFilledObs (run [Op.clone] (run [Op.fill 5, Op.take] (Sys.new (0 : Nat)))) = false ∧
     Sys.everObs (run [Op.clone] (run [Op.fill 5, Op.take] (Sys.new (0 : Nat)))) = true) :=
  ⟨by decide, take_once_bounded 0 5 [Op.clone] (by decide)⟩

/-- C3 counterexample: after fill and take, `2 ^ 30 - 1` clone operations
carry the strong count into bit 30, after which `peek` and `take` on the
same never-refilled ivar return `Some 7` again and `is_filled` is true —
refuting the unconditional "every subsequent take or peek returns None". -/
theorem take_once_overflow_cex :
    Sys.peekObs (run (List.replicate 1073741823 Op.clone) (run [Op.fill 7, Op.take] (Sys.new (0 : Nat)))) = some 7 ∧
    Sys.takeObs (run (List.replicate 1073741823 Op.clone) (run [Op.fill 7, Op.take] (Sys.new (0 : Nat)))) = some 7 ∧
    Sys.isFilledObs (run (List.replicate 1073741823 Op.clone) (run [Op.fill 7, Op.take] (Sys.new (0 : Nat)))) = true := by
  rw [postTake_state (0 : Nat) 7]
  obtain ⟨h1, _, _, _, _, _⟩ := run_replicate_clone 1073741823 { cell := some (IVarCell.mk (7 : Nat) (mval true false 1)), rd := 1, wr := false, frees := 0, takenOut := [7], disposed := [] } 7 (mval true false 1) rfl (by rfl) (by norm_num [mval, flagK, U32])
  have hm : mval true false 1 + 1073741823 = 3221225472 := by norm_num [mval, flagK]
  rw [hm] at h1
  refine ⟨?_, ?_, ?_⟩
  · rw [Sys.peekObs, h1]
    decide
  · rw [Sys.takeObs, h1]
    decide
  · rw [Sys.isFilledObs, h1]
    decide

/-- C7 (amended): as long as the total clone count keeps the live-handle
count below `2 ^ 28` (so the refcount never carries into reserved or flag
bits), `ever_filled` is monotonic: it is false after any fill-free,
write-handle-preserving trace, becomes true at the moment `fill`
executes, and stays true under every subsequent operation. -/
theorem ever_filled_monotonic_bounded (junk v : α) (ops1 ops2 : List (Op α))
    (h1 : hasFill ops1 = false) (h2 : hasDropWr ops1 = false)
    (hb : countClone ops1 + countClone ops2 + 2 < 2 ^ 28) :
    Sys.everObs (run ops1 (Sys.new junk)) = false ∧
    Sys.everObs (run (ops1 ++ [Op.fill v]) (Sys.new junk)) = true ∧
    Sys.everObs (run ((ops1 ++ [Op.fill v]) ++ ops2) (Sys.new junk)) = true := by
  have hc0 : (Sys.new junk).cell = some (IVarCell.mk junk (mval false false ((Sys.new junk).rd + 1))) := by
    rw [new_state]
  obtain ⟨hc1, hw1, hb1⟩ := run_prefill_inv ops1 (Sys.new junk) junk h1 h2 hc0 rfl (by show (1 + 1) + countClone ops1 < 2 ^ 28; omega)
  have he1 := (obs_mval (run ops1 (Sys.new junk)) junk false false _ hc1 (by omega)).2.2.2
  have hfill := fill_mval (d := junk) (r := (run ops1 (Sys.new junk)).rd + 1) v false false (by omega)
  have hdecf := dec_ref_mval (d := v) (r := (run ops1 (Sys.new junk)).rd + 1) true true (by omega) (by omega)
  have hsub : ((run ops1 (Sys.new junk)).rd + 1) - 1 = (run ops1 (Sys.new junk)).rd := by omega
  have hstep2 : run (ops1 ++ [Op.fill v]) (Sys.new junk) = { run ops1 (Sys.new junk) with cell := some (IVarCell.mk v (mval true true (run ops1 (Sys.new junk)).rd)), wr := false } := by
    rw [run_append, run_cons, run_nil]
    simp [step, hw1, hc1, dropHandle, hfill, hdecf, hsub]
  have hc2 : (run (ops1 ++ [Op.fill v]) (Sys.new junk)).cell = some (IVarCell.mk v (mval true true (run (ops1 ++ [Op.fill v]) (Sys.new junk)).rd)) := by
    rw [hstep2]
  have hw2 : (run (ops1 ++ [Op.fill v]) (Sys.new junk)).wr = false := by
    rw [hstep2]
  have hrd2 : (run (ops1 ++ [Op.fill v]) (Sys.new junk)).rd = (run ops1 (Sys.new junk)).rd := by
    rw [hstep2]
  have he2 := (obs_mval (run (ops1 ++ [Op.fill v]) (Sys.new junk)) v true true _ hc2 (by rw [hrd2]; omega)).2.2.2
  rw [run_append (ops1 ++ [Op.fill v]) ops2]
  obtain ⟨c', hmono, hcell3, hw3, hrd3⟩ := run_filled_inv ops2 (run (ops1 ++ [Op.fill v]) (Sys.new junk)) v true hc2 hw2 (by rw [hrd2]; omega)
  have he3 := (obs_mval _ v true c' _ hcell3 hrd3).2.2.2
  exact ⟨he1, he2, he3⟩

/-- Witness for `ever_filled_monotonic_bounded` at `junk = 0`, `v = 3`,
`ops1 = [Op.clone]`, `ops2 = [Op.dropRd]`. -/
theorem ever_filled_monotonic_bounded_witness :
    (hasFill [(Op.clone : Op Nat)] = false) ∧
    (hasDropWr [(Op.clone : Op Nat)] = false) ∧
    (countClone [(Op.clone : Op Nat)] + countClone [(Op.dropRd : Op Nat)] + 2 < 2 ^ 28) ∧
    (Sys.everObs (run [Op.clone] (Sys.new (0 : Nat))) = false ∧
     Sys.everObs (run ([Op.clone] ++ [Op.fill 3]) (Sys.new (0 : Nat))) = true ∧
     Sys.everObs (run (([Op.clone] ++ [Op.fill 3]) ++ [Op.dropRd]) (Sys.new (0 : Nat))) = true) :=
  ⟨by decide, by decide, by decide,
   ever_filled_monotonic_bounded 0 3 [Op.clone] [Op.dropRd] (by decide) (by decide) (by decide)⟩

/-- C7 counterexample: `2 ^ 31 - 2` clone operations from a fresh, never
filled pair carry the count into bit 31, making `was_ever_filled` true
although the trace contains no fill at all — refuting the unconditional
"the ever-filled bit transitions only at the moment of fill". -/
theorem ever_filled_without_fill_cex :
    hasFill (List.replicate 2147483646 (Op.clone : Op Nat)) = false ∧
    Sys.everObs (run (List.replicate 2147483646 Op.clone) (Sys.new (0 : Nat))) = true := by
  obtain ⟨h1, _, _, _, _, _⟩ := run_replicate_clone 2147483646 (Sys.new (0 : Nat)) 0 2 rfl (by rfl) (by norm_num [U32])
  refine ⟨hasFill_replicate_clone _, ?_⟩
  rw [Sys.everObs, h1]
  decide

/-- C10 (amended): a successful `take` hands the payload out and leaves
the `currently_filled` bit clear; the cell destructor disposes of the
payload only when that bit is set; and — provided the clone count keeps
the live handles below `2 ^ 28` — at most one payload is moved out or
destructor-disposed across any whole trace from a fresh pair. -/
theorem payload_disposed_once_bounded (junk : α) (c : IVarCell α) (ops : List (Op α))
    (hf : c.is_currently_filled = true) (hb : countClone ops + 2 < 2 ^ 28) :
    (IVarCell.take c).2 = some c.data ∧
    (IVarCell.take c).1.is_currently_filled = false ∧
    (∀ c2 : IVarCell α, c2.is_currently_filled = false → IVarCell.dropPayload c2 = none) ∧
    (run ops (Sys.new junk)).takenOut.length + (run ops (Sys.new junk)).disposed.length ≤ 1 := by
  refine ⟨?_, ?_, ?_, ?_⟩
  · simp [IVarCell.take, hf]
  · simp [IVarCell.take, hf, mark_taken_not_filled]
  · intro c2 h
    simp [IVarCell.dropPayload, h]
  · have hdisp : (run ops (Sys.new junk)).disposed = [] := by
      rw [run_disposed_eq]
      rfl
    have hshape : InvShape (Sys.new junk) := by
      refine Or.inr ⟨junk, false, false, ?_, Or.inl ⟨rfl, rfl, rfl⟩⟩
      show (Sys.new junk).cell = some (IVarCell.mk junk (mval false false (Sys.new junk).handles))
      rw [new_state]
      rfl
    obtain ⟨hinv, _⟩ := run_shape ops (Sys.new junk) hshape (by show 2 + countClone ops < 2 ^ 28; omega)
    rcases hinv with ⟨_, htk⟩ | ⟨v, e, cc, _, hbr⟩
    · rw [htk, hdisp]
      simp
    · rcases hbr with ⟨_, _, htk⟩ | ⟨_, _, _, htk⟩ | ⟨_, _, _, w, htk⟩ <;> rw [htk, hdisp] <;> simp

/-- Witness for `payload_disposed_once_bounded` at `junk = 0`,
`c = ⟨5, 0xC0000001⟩`, `ops = [Op.fill 1, Op.take]`. -/
theorem payload_disposed_once_bounded_witness :
    ((IVarCell.mk (5 : Nat) 0xC0000001).is_currently_filled = true) ∧
    (countClone [(Op.fill 1 : Op Nat), Op.take] + 2 < 2 ^ 28) ∧
    ((IVarCell.take (IVarCell.mk (5 : Nat) 0xC0000001)).2 = some (IVarCell.mk (5 : Nat) 0xC0000001).data ∧
     (IVarCell.take (IVarCell.mk (5 : Nat) 0xC0000001)).1.is_currently_filled = false ∧
     (∀ c2 : IVarCell Nat, c2.is_currently_filled = false → IVarCell.dropPayload c2 = none) ∧
     (run [Op.fill 1, Op.take] (Sys.new (0 : Nat))).takenOut.length + (run [Op.fill 1, Op.take] (Sys.new (0 : Nat))).disposed.length ≤ 1) :=
  ⟨by decide, by decide,
   payload_disposed_once_bounded 0 (IVarCell.mk 5 0xC0000001) [Op.fill 1, Op.take] (by decide) (by decide)⟩

/-- C10 counterexample: with `2 ^ 30 - 1` clones after fill and take, the
carried bit 30 lets a second `take` move the same payload out again: the
one payload is handed out (and will be dropped by callers) twice,
refuting the unconditional "disposed of at most once". -/
theorem double_take_overflow_cex :
    (run (([Op.fill 7, Op.take] ++ List.replicate 1073741823 Op.clone) ++ [Op.take]) (Sys.new (0 : Nat))).takenOut = [7, 7] := by
  rw [run_append, run_append, postTake_state]
  obtain ⟨h1, h2, _, _, h5, _⟩ := run_replicate_clone 1073741823 { cell := some (IVarCell.mk (7 : Nat) (mval true false 1)), rd := 1, wr := false, frees := 0, takenOut := [7], disposed := [] } 7 (mval true false 1) rfl (by rfl) (by norm_num [mval, flagK, U32])
  have hm : mval true false 1 + 1073741823 = 3221225472 := by norm_num [mval, flagK]
  rw [hm] at h1
  have hcur : (IVarCell.mk (7 : Nat) 3221225472).is_currently_filled = true := by decide
  have hrd : 1 ≤ (run (List.replicate 1073741823 Op.clone) { cell := some (IVarCell.mk (7 : Nat) (mval true false 1)), rd := 1, wr := false, frees := 0, takenOut := [7], disposed := [] }).rd := by
    rw [h2]
    omega
  rw [run_cons, run_nil]
  simp only [step, hrd, if_pos, h1, IVarCell.take, hcur, if_true, h5]
  rfl

end Ivar
